import Mathlib

/-!
# Shallow embedding of the genus query core

This file embeds the query-construction, rendering, materialization and
Optional components of the genus library (Go) and settles the frozen claims
about them.

Conventions of the embedding:
* Go `interface{}` payloads carried by conditions are modelled by `GoAny`.
* Go machine integers (`int`, `int64`) are modelled by `Int`; no arithmetic
  is ever performed on them by the embedded code, they are only carried.
* A Go method with pointer receiver that mutates the receiver is modelled as
  a function from the receiver's state to the receiver's post-call state.
* Go `nil` slices versus non-nil empty slices are distinguished by
  `GoSlice α := Option (List α)` with `none` playing the role of `nil`.
-/

set_option maxHeartbeats 1000000

namespace Genus

/-- Model of a Go `interface{}` value as it appears in condition payloads
(`Condition.Value`). The list constructors correspond to the slice types
recognised by `interfaceSlice` in `query/builder.go`; `vNil` is the nil
interface (the `Value` of an `IsNull`/`IsNotNull` condition). -/
inductive GoAny where
  | vNil : GoAny
  | vInt (n : Int) : GoAny
  | vInt64 (n : Int) : GoAny
  | vStr (s : String) : GoAny
  | vBool (b : Bool) : GoAny
  | vList (l : List GoAny) : GoAny
  | vListStr (l : List String) : GoAny
  | vListInt (l : List Int) : GoAny
  | vListInt64 (l : List Int) : GoAny
  | vListBool (l : List Bool) : GoAny

/-- Embeds `interfaceSlice` from `query/builder.go`: converts the slice types
it recognises to `[]interface{}`; any other value becomes a one-element
slice. -/
def interfaceSlice (value : GoAny) : List GoAny :=
  match value with
  | .vListStr l => l.map .vStr
  | .vListInt l => l.map .vInt
  | .vListInt64 l => l.map .vInt64
  | .vListBool l => l.map .vBool
  | .vList l => l
  | v => [v]

/-! ## Operators (`query/condition.go`) -/

/-- `Operator` is a string type in the source; the constants below are the
declared operator values. -/
abbrev Operator := String

def OpEq : Operator := "="
def OpNe : Operator := "!="
def OpGt : Operator := ">"
def OpGte : Operator := ">="
def OpLt : Operator := "<"
def OpLte : Operator := "<="
def OpLike : Operator := "LIKE"
def OpNotLike : Operator := "NOT LIKE"
def OpIn : Operator := "IN"
def OpNotIn : Operator := "NOT IN"
def OpBetween : Operator := "BETWEEN"
def OpIsNull : Operator := "IS NULL"
def OpIsNotNull : Operator := "IS NOT NULL"

/-- `Condition` from `query/condition.go`: a leaf WHERE node. -/
structure Condition where
  Field : String
  Operator : Operator
  Value : GoAny

/-- Embeds `Not` from `query/condition.go`: swaps Eq/Ne, IsNull/IsNotNull
and In/NotIn; every other operator falls through the switch and the
condition is returned unchanged. -/
def Not (condition : Condition) : Condition :=
  if condition.Operator = OpEq then { condition with Operator := OpNe }
  else if condition.Operator = OpNe then { condition with Operator := OpEq }
  else if condition.Operator = OpIsNull then { condition with Operator := OpIsNotNull }
  else if condition.Operator = OpIsNotNull then { condition with Operator := OpIsNull }
  else if condition.Operator = OpIn then { condition with Operator := OpNotIn }
  else if condition.Operator = OpNotIn then { condition with Operator := OpIn }
  else condition

/-! ## Optional (core/optional.go)

The source `Optional[T]` is generic; per the round-trip claim's example the
embedding instantiates it at `T = int`. Go's `None[int]()` is
`{value: 0, valid: false}` (the zero value of `T`). -/

/-- `Optional[int]` from the core package: `value` is meaningful only when
`valid` is true. -/
structure OptionalInt where
  value : Int
  valid : Bool
  deriving DecidableEq, Repr

/-- `Some[int]` constructor. -/
def someInt (v : Int) : OptionalInt := { value := v, valid := true }

/-- `None[int]()` constructor: the `value` field stays at the zero value. -/
def noneInt : OptionalInt := { value := 0, valid := false }

/-- A Go `driver.Value` / loosely-typed backend value handed to
`Optional.Scan`. `dbBytes` carries the textual content of a `[]byte`. -/
inductive DbValue where
  | dbNull : DbValue
  | dbInt (n : Int) : DbValue
  | dbInt64 (n : Int) : DbValue
  | dbInt32 (n : Int) : DbValue
  | dbStr (s : String) : DbValue
  | dbBytes (s : String) : DbValue
  | dbBool (b : Bool) : DbValue
  deriving DecidableEq, Repr

/-- Embeds `convertToInt` from core: accepts `int`, `int64`, `int32` and
`[]byte` (parsed decimal); anything else is an error. Byte-sequence parsing
is modelled abstractly by `String.toInt?`. -/
def convertToInt (value : DbValue) : Except String Int :=
  match value with
  | .dbInt n => .ok n
  | .dbInt64 n => .ok n
  | .dbInt32 n => .ok n
  | .dbBytes s => match s.toInt? with
    | some n => .ok n
    | none => .error "scan"
  | _ => .error "cannot convert to int"

/-- Embeds `Optional.Scan` specialised at `T = int`: a nil value clears
`valid`; otherwise `valid` is set and the payload is converted, the
`case T` type switch matching a Go `int` directly. -/
def scanOptInt (o : OptionalInt) (value : DbValue) : Except String OptionalInt :=
  match value with
  | .dbNull => .ok { o with valid := false }
  | .dbInt n => .ok { o with valid := true, value := n }
  | v =>
    match convertToInt v with
    | .ok n => .ok { o with valid := true, value := n }
    | .error e => .error e

/-- Embeds `Optional.Value` specialised at `T = int`: nil when absent,
otherwise the wrapped value itself. -/
def valueOptInt (o : OptionalInt) : DbValue :=
  if o.valid then .dbInt o.value else .dbNull

/-! ## Dialects (`dialects/*`, `core/interfaces.go`) -/

/-- The `core.Dialect` surface consumed by query rendering. -/
structure Dialect where
  placeholder : Nat → String
  quoteIdentifier : String → String

/-- The PostgreSQL dialect: numbered placeholders, double-quoted
identifiers. -/
def postgres : Dialect where
  placeholder := fun n => "$" ++ toString n
  quoteIdentifier := fun name => "\"" ++ name ++ "\""

/-- The SQLite dialect (`dialects/sqlite/sqlite.go`): uniform `?`
placeholders. -/
def sqlite : Dialect where
  placeholder := fun _ => "?"
  quoteIdentifier := fun name => "\"" ++ name ++ "\""

/-! ## The WHERE tree

The builder's `conditions` field and a `ConditionGroup`'s `Conditions`
field are `[]interface{}` holding `Condition` or `ConditionGroup` values;
`WhereElem`/`WhereList` model such a sequence. A group's `Operator` is the
string `"AND"` or `"OR"` in the source (`LogicalOperator`); rendering
treats anything other than `"OR"` as AND, which the model mirrors by
keeping the field a `String`. -/

mutual
inductive WhereElem where
  | cond (c : Condition) : WhereElem
  | group (operator : String) (children : WhereList) : WhereElem
inductive WhereList where
  | nil : WhereList
  | cons (head : WhereElem) (tail : WhereList) : WhereList
end

/-- `strings.Join`: empty separator-joined concatenation of a list. -/
def goJoin (sep : String) : List String → String
  | [] => ""
  | [s] => s
  | s :: rest => s ++ sep ++ goJoin sep rest

/-- A fragment of rendered SQL text: literal text or the placeholder for
argument position `n`. The emitted SQL string is the left-to-right
concatenation of the fragments (`toksStr`). -/
inductive SqlTok where
  | lit (s : String) : SqlTok
  | ph (n : Nat) : SqlTok

/-- Renders a fragment list to the SQL string, resolving placeholders
through the dialect. -/
def toksStr (d : Dialect) : List SqlTok → String
  | [] => ""
  | .lit s :: ts => s ++ toksStr d ts
  | .ph n :: ts => d.placeholder n ++ toksStr d ts

/-- The placeholder positions occurring in a fragment list, in order of
appearance in the rendered text. -/
def phsOf : List SqlTok → List Nat
  | [] => []
  | .lit _ :: ts => phsOf ts
  | .ph n :: ts => n :: phsOf ts

/-- Fragment-level counterpart of `strings.Join`. -/
def joinToksSep (sep : String) : List (List SqlTok) → List SqlTok
  | [] => []
  | [t] => t
  | t :: ts => t ++ .lit sep :: joinToksSep sep ts

/-- The fragments of `p_i, p_(i+1), ..., p_(i+n-1)`: the comma-separated
placeholder list built by the IN/NOT IN loop. -/
def phToksSep (i : Nat) : Nat → List SqlTok
  | 0 => []
  | 1 => [.ph i]
  | n + 2 => .ph i :: .lit ", " :: phToksSep (i + 1) (n + 1)

/-- Fragment-level embedding of `buildCondition` (`query/builder.go`):
renders one leaf condition at argument counter `i`, returning the
fragments, the arguments appended for this condition, and the new counter.
The `BETWEEN` arm matches the source's `len(values) != 2` guard: exactly
two values index `values[0]`/`values[1]`, otherwise the empty fragment is
returned with no error. -/
def buildCondToks (c : Condition) (i : Nat) : List SqlTok × List GoAny × Nat :=
  if c.Operator = OpIsNull then ([.lit (c.Field ++ " IS NULL")], [], i)
  else if c.Operator = OpIsNotNull then ([.lit (c.Field ++ " IS NOT NULL")], [], i)
  else if c.Operator = OpIn ∨ c.Operator = OpNotIn then
    let values := interfaceSlice c.Value
    let op := if c.Operator = OpNotIn then "NOT IN" else "IN"
    ([.lit (c.Field ++ " " ++ op ++ " (")] ++ phToksSep i values.length ++ [.lit ")"],
      values, i + values.length)
  else if c.Operator = OpBetween then
    match interfaceSlice c.Value with
    | [lo, hi] =>
      ([.lit (c.Field ++ " BETWEEN "), .ph i, .lit " AND ", .ph (i + 1)], [lo, hi], i + 2)
    | _ => ([], [], i)
  else ([.lit (c.Field ++ " " ++ c.Operator ++ " "), .ph i], [c.Value], i + 1)

mutual
/-- Fragment-level rendering of one element of a condition sequence, as
both `buildWhereClause` and `buildConditionGroup` render their loop
elements: a `Condition` via `buildCondToks`, a nested `ConditionGroup`
parenthesized around its joined children. -/
def elemToks : WhereElem → Nat → List SqlTok × List GoAny × Nat
  | .cond c, i => buildCondToks c i
  | .group op children, i =>
    let r := listToks children i
    (.lit "(" :: joinToksSep (if op = "OR" then " OR " else " AND ") r.1 ++ [.lit ")"],
      r.2.1, r.2.2)
/-- Fragment-level rendering of a condition sequence: the per-element parts
(to be joined by the caller's operator), the concatenated arguments, and
the threaded counter. -/
def listToks : WhereList → Nat → List (List SqlTok) × List GoAny × Nat
  | .nil, i => ([], [], i)
  | .cons e rest, i =>
    let r := elemToks e i
    let rr := listToks rest r.2.2
    (r.1 :: rr.1, r.2.1 ++ rr.2.1, rr.2.2)
end

/-- Fragment-level embedding of `buildWhereClause`: the top-level condition
sequence joined by `" AND "`, with the argument counter starting at 1. -/
def whereToks (conds : WhereList) : List SqlTok × List GoAny :=
  let r := listToks conds 1
  (joinToksSep " AND " r.1, r.2.1)

/-- String-level embedding of `buildCondition` (`query/builder.go`),
mirroring the source's `fmt.Sprintf` and `strings.Join` calls against a
dialect. -/
def buildCondition (d : Dialect) (c : Condition) (i : Nat) : String × List GoAny × Nat :=
  if c.Operator = OpIsNull then (c.Field ++ " IS NULL", [], i)
  else if c.Operator = OpIsNotNull then (c.Field ++ " IS NOT NULL", [], i)
  else if c.Operator = OpIn ∨ c.Operator = OpNotIn then
    let values := interfaceSlice c.Value
    let placeholders := (List.range' i values.length).map d.placeholder
    let op := if c.Operator = OpNotIn then "NOT IN" else "IN"
    (c.Field ++ " " ++ op ++ " (" ++ goJoin ", " placeholders ++ ")", values, i + values.length)
  else if c.Operator = OpBetween then
    match interfaceSlice c.Value with
    | [lo, hi] =>
      (c.Field ++ " BETWEEN " ++ d.placeholder i ++ " AND " ++ d.placeholder (i + 1),
        [lo, hi], i + 2)
    | _ => ("", [], i)
  else (c.Field ++ " " ++ c.Operator ++ " " ++ d.placeholder i, [c.Value], i + 1)

mutual
/-- String-level rendering of one sequence element (the two switch arms of
the loops in `buildWhereClause`/`buildConditionGroup`). -/
def elemStr (d : Dialect) : WhereElem → Nat → String × List GoAny × Nat
  | .cond c, i => buildCondition d c i
  | .group op children, i =>
    let r := listStr d children i
    ("(" ++ goJoin (if op = "OR" then " OR " else " AND ") r.1 ++ ")", r.2.1, r.2.2)
/-- String-level rendering of a condition sequence into its `parts` list,
concatenated args, and threaded counter. -/
def listStr (d : Dialect) : WhereList → Nat → List String × List GoAny × Nat
  | .nil, i => ([], [], i)
  | .cons e rest, i =>
    let r := elemStr d e i
    let rr := listStr d rest r.2.2
    (r.1 :: rr.1, r.2.1 ++ rr.2.1, rr.2.2)
end

/-- Embeds `buildWhereClause` (`query/builder.go`): parts joined by
`" AND "`, `argIndex` starting at 1. -/
def buildWhereClause (d : Dialect) (conds : WhereList) : String × List GoAny :=
  let r := listStr d conds 1
  (goJoin " AND " r.1, r.2.1)

/-- Concrete query tree used by the C1 witness:
`age > 18 AND (name IN (a, b) OR email IS NULL) AND score != 7`. -/
def c1ExampleTree : WhereList :=
  .cons (.cond ⟨"age", OpGt, .vInt 18⟩)
    (.cons (.group "OR"
      (.cons (.cond ⟨"name", OpIn, .vListStr ["a", "b"]⟩)
        (.cons (.cond ⟨"email", OpIsNull, .vNil⟩) .nil)))
      (.cons (.cond ⟨"score", OpNe, .vInt 7⟩) .nil))

/-! ## The query builder (`query/builder.go`)

`Builder[T]` carries an executor, dialect and logger (external
collaborators not modelled) plus the query state below. Its mutator
methods have pointer receivers and assign through the receiver, returning
the receiver itself; each is embedded as a function from the receiver's
state to the receiver's post-call state (which is also the state of the
returned builder, the same object). -/

/-- `OrderBy` from `query/builder.go`. -/
structure OrderBy where
  Column : String
  Desc : Bool
  deriving DecidableEq

/-- Appending one element at the end of a condition sequence
(`append(b.conditions, condition)`). -/
def WhereList.snoc : WhereList → WhereElem → WhereList
  | .nil, e => .cons e .nil
  | .cons h t, e => .cons h (t.snoc e)

/-- `len` of a condition sequence. -/
def WhereList.length : WhereList → Nat
  | .nil => 0
  | .cons _ t => t.length + 1

/-- The query state held by a `Builder[T]` value. -/
structure BuilderState where
  tableName : String
  conditions : WhereList
  orderBy : List OrderBy
  limit : Option Int
  offset : Option Int
  selectCols : List String

/-- `NewBuilder`: zero-valued collections, no limit/offset. -/
def newBuilder (tableName : String) : BuilderState :=
  { tableName := tableName, conditions := .nil, orderBy := [], limit := none,
    offset := none, selectCols := [] }

/-- `Builder.Where`: appends to the receiver's condition list (the method
returns the receiver pointer itself). -/
def Where (b : BuilderState) (condition : WhereElem) : BuilderState :=
  { b with conditions := b.conditions.snoc condition }

/-- `Builder.OrderByAsc`. -/
def OrderByAsc (b : BuilderState) (column : String) : BuilderState :=
  { b with orderBy := b.orderBy ++ [{ Column := column, Desc := false }] }

/-- `Builder.OrderByDesc`. -/
def OrderByDesc (b : BuilderState) (column : String) : BuilderState :=
  { b with orderBy := b.orderBy ++ [{ Column := column, Desc := true }] }

/-- `Builder.Limit`: sets the receiver's limit pointer. -/
def Limit (b : BuilderState) (limit : Int) : BuilderState :=
  { b with limit := some limit }

/-- `Builder.Offset`. -/
def Offset (b : BuilderState) (offset : Int) : BuilderState :=
  { b with offset := some offset }

/-- `Builder.Select`: replaces the selected-column list. -/
def Select (b : BuilderState) (columns : List String) : BuilderState :=
  { b with selectCols := columns }

/-- Embeds `buildSelectQuery`: SELECT list (or `*`), quoted table name,
optional WHERE (args only come from there), ORDER BY, then LIMIT and
OFFSET rendered as literals. -/
def buildSelectQuery (d : Dialect) (b : BuilderState) : String × List GoAny :=
  let selectPart := if b.selectCols.length > 0 then goJoin ", " b.selectCols else "*"
  let base := "SELECT " ++ selectPart ++ " FROM " ++ d.quoteIdentifier b.tableName
  let w := buildWhereClause d b.conditions
  let afterWhere := if b.conditions.length > 0 then base ++ " WHERE " ++ w.1 else base
  let args := if b.conditions.length > 0 then w.2 else []
  let orderPart :=
    if b.orderBy.length > 0 then
      " ORDER BY " ++ goJoin ", "
        (b.orderBy.map fun o => if o.Desc then o.Column ++ " DESC" else o.Column ++ " ASC")
    else ""
  let limitPart := match b.limit with | some n => " LIMIT " ++ toString n | none => ""
  let offsetPart := match b.offset with | some n => " OFFSET " ++ toString n | none => ""
  (afterWhere ++ orderPart ++ limitPart ++ offsetPart, args)

/-! ## The scanner (`query/scanner.go`)

Go record types are modelled by `GoFields`: a declaration-ordered field
list where a field is either a named field carrying its `db` tag, or an
embedded/anonymous composite field carrying its own field declarations
(`buildFieldMapWithPrefix` calls `NumField` on an anonymous field's type,
so only struct-typed embedding is meaningful). Instances are modelled by
`GoVal`/`GoVals` trees whose leaves carry scanned scalar values. -/

mutual
inductive GoTy where
  | prim : GoTy
  | strct (fields : GoFields) : GoTy
inductive GoFields where
  | nil : GoFields
  | named (tag : String) (ty : GoTy) (rest : GoFields) : GoFields
  | anon (fields : GoFields) (rest : GoFields) : GoFields
end

mutual
inductive GoVal where
  | leaf (a : GoAny) : GoVal
  | strct (fields : GoVals) : GoVal
inductive GoVals where
  | nil : GoVals
  | cons (v : GoVal) (rest : GoVals) : GoVals
end

mutual
/-- An instance value conforms to a Go type. -/
def confVal : GoVal → GoTy → Bool
  | .leaf _, .prim => true
  | .strct vs, .strct fs => confVals vs fs
  | _, _ => false
/-- An instance field list conforms to a field declaration list (an
anonymous field's value is a struct of the embedded declarations). -/
def confVals : GoVals → GoFields → Bool
  | .nil, .nil => true
  | .cons v rest, .named _ ty frest => confVal v ty && confVals rest frest
  | .cons v rest, .anon efs frest => confVal v (.strct efs) && confVals rest frest
  | _, _ => false
end

/-- Every field that declares a real `db` column has primitive type (the
usual case; scanning a row value into a struct-typed field would make
`rows.Scan` fail row-wide in the source). -/
def primTagged : GoFields → Bool
  | .nil => true
  | .named tag ty rest =>
    (if tag = "" ∨ tag = "-" then true else match ty with | .prim => true | _ => false)
      && primTagged rest
  | .anon efs rest => primTagged efs && primTagged rest

mutual
/-- `var item T`: the zero value of a type. The zero of a primitive field
is modelled by the `vNil` scalar. -/
def zeroVal : GoTy → GoVal
  | .prim => .leaf .vNil
  | .strct fs => .strct (zeroFlds fs)
/-- Zero value of a field list. -/
def zeroFlds : GoFields → GoVals
  | .nil => .nil
  | .named _ ty rest => .cons (zeroVal ty) (zeroFlds rest)
  | .anon efs rest => .cons (.strct (zeroFlds efs)) (zeroFlds rest)
end

/-- A `fieldPath` (`query/scanner.go`): indices descending through
embedded structs. -/
abbrev FieldPath := List Nat

/-- The Go `map[string]fieldPath`, modelled by its lookup function. -/
abbrev FMap := String → Option FieldPath

/-- `make(map[string]fieldPath)`. -/
def fmapEmpty : FMap := fun _ => none

/-- A single Go map write `fieldMap[k] = v`. -/
def fmapInsert (m : FMap) (k : String) (v : FieldPath) : FMap :=
  fun s => if s = k then some v else m s

/-- The result of `for k, v := range em { m[k] = v }`: every key present
in `em` overwrites `m`. Independence from the range iteration order is
proved in the C10 theorem. -/
def fmapMerge (m em : FMap) : FMap :=
  fun s => match em s with | some v => some v | none => m s

/-- Embeds the loop of `buildFieldMapWithPrefix`: walks the declarations
at index `i` under `parentPath`, writing `tag -> parentPath ++ [i]` for a
named field with a usable tag (skipping empty and `"-"` tags), and for an
anonymous field recursively building the embedded map under the extended
path and merging it in. -/
def buildFieldsMap : GoFields → FieldPath → Nat → FMap → FMap
  | .nil, _, _, acc => acc
  | .named tag _ rest, parentPath, i, acc =>
    let acc' := if tag = "" ∨ tag = "-" then acc
      else fmapInsert acc tag (parentPath ++ [i])
    buildFieldsMap rest parentPath (i + 1) acc'
  | .anon efs rest, parentPath, i, acc =>
    let em := buildFieldsMap efs (parentPath ++ [i]) 0 fmapEmpty
    buildFieldsMap rest parentPath (i + 1) (fmapMerge acc em)

/-- Embeds `buildFieldMap`: `buildFieldMapWithPrefix(typ, nil)`. -/
def buildFieldMap (fs : GoFields) : FMap := buildFieldsMap fs [] 0 fmapEmpty

/-- The flattened declaration journal of a field list starting at index
`i`: the `(column, path)` writes in declaration order, embedded
contributions inlined at the embedded field's position. -/
def declsJ : GoFields → Nat → List (String × FieldPath)
  | .nil, _ => []
  | .named tag _ rest, i =>
    (if tag = "" ∨ tag = "-" then [] else [(tag, [i])]) ++ declsJ rest (i + 1)
  | .anon efs rest, i =>
    (declsJ efs 0).map (fun e => (e.1, i :: e.2)) ++ declsJ rest (i + 1)

/-- Lookup preferring the last matching entry of a write journal (Go map
semantics: the latest write wins). -/
def lastLookup (l : List (String × FieldPath)) (k : String) : Option FieldPath :=
  match l with
  | [] => none
  | e :: rest =>
    match lastLookup rest k with
    | some v => some v
    | none => if e.1 = k then some e.2 else none

mutual
/-- Embeds `getFieldByPath`: descends `current.Field(index)` along the
path; an index beyond `NumField` yields an invalid value (`none`). The
field-list walker carries the index of its head field. -/
def getPathV : GoVal → FieldPath → Option GoVal
  | v, [] => some v
  | .leaf _, _ :: _ => none
  | .strct vs, j :: q => getPathVs vs 0 j q
/-- Field lookup by absolute index `j`, the head of `vs` being field `i`. -/
def getPathVs : GoVals → Nat → Nat → FieldPath → Option GoVal
  | .nil, _, _, _ => none
  | .cons v rest, i, j, q => if j = i then getPathV v q else getPathVs rest (i + 1) j q
end

mutual
/-- Writing a scanned scalar through a field path: the addressed leaf is
overwritten; an invalid path leaves the value unchanged. -/
def setPathV : GoVal → FieldPath → GoAny → GoVal
  | _, [], a => .leaf a
  | .leaf x, _ :: _, _ => .leaf x
  | .strct vs, j :: q, a => .strct (setPathVs vs 0 j q a)
/-- Field write by absolute index `j`, the head of `vs` being field `i`. -/
def setPathVs : GoVals → Nat → Nat → FieldPath → GoAny → GoVals
  | .nil, _, _, _, _ => .nil
  | .cons v rest, i, j, q, a =>
    if j = i then .cons (setPathV v q a) rest
    else .cons v (setPathVs rest (i + 1) j q a)
end

/-- Embeds `scanStruct` applied to one result row: columns resolving to a
valid field path of the destination get their value written there (in
column order, as `rows.Scan` assigns); unresolved or invalid columns are
scanned into a discarded placeholder. Validity of each address is
determined against the destination before any write, as the source takes
all addresses before calling `Scan`. -/
def scanStep (fm : FMap) (dest : GoVal) (acc : GoVal) (cv : String × GoAny) : GoVal :=
  match fm cv.1 with
  | some p => if (getPathV dest p).isSome then setPathV acc p cv.2 else acc
  | none => acc

/-- The write sequence of one `rows.Scan` call: column values are written
in column order through their resolved addresses. -/
def scanRowGo (fs : GoFields) (cols : List String) (vals : List GoAny)
    (dest : GoVal) : GoVal :=
  (cols.zip vals).foldl (scanStep (buildFieldMap fs) dest) dest

/-- The record type of the spec's embedded-field example: an embedded
base sub-record (`core.Model`: `id`, `created_at`, `updated_at`) merging
its columns into the parent namespace, plus a direct `name` field. -/
def exUserFields : GoFields :=
  .anon (.named "id" .prim (.named "created_at" .prim (.named "updated_at" .prim .nil)))
    (.named "name" .prim .nil)

/-- A Go slice, distinguishing the `nil` slice (`none`) from non-nil
slices (`some` of the element list). -/
abbrev GoSlice (α : Type) := Option (List α)

/-- Go `append`: appending to a nil slice allocates a non-nil one. -/
def goAppend {α : Type} (s : GoSlice α) (x : α) : GoSlice α :=
  some (s.getD [] ++ [x])

/-- The row-materialization loop of `Builder.Find`: starting from
`var results []T` (the nil slice), scan each row into a zero value of the
record type and append. -/
def findMaterialize (fs : GoFields) (cols : List String)
    (rows : List (List GoAny)) : GoSlice GoVal :=
  rows.foldl
    (fun acc row => goAppend acc (scanRowGo fs cols row (.strct (zeroFlds fs))))
    none

/-- Embeds `Builder.Find` on its success path against an executor
response of `rows` with result columns `cols`: the issued query text and
arguments, and the materialized result slice. -/
def Find (d : Dialect) (b : BuilderState) (fs : GoFields) (cols : List String)
    (rows : List (List GoAny)) : (String × List GoAny) × GoSlice GoVal :=
  (buildSelectQuery d b, findMaterialize fs cols rows)

/-- Errors surfaced by the embedded terminal operations. -/
inductive GoErr where
  | noRowsFound : GoErr
  deriving DecidableEq

/-- Embeds `Builder.First`: mutates the receiver with `Limit(1)`, runs
`Find` on it, and fails with the no-rows error when zero rows come back,
otherwise yields the first record. -/
def First (d : Dialect) (b : BuilderState) (fs : GoFields) (cols : List String)
    (rows : List (List GoAny)) : (String × List GoAny) × Except GoErr GoVal :=
  let b1 := Limit b 1
  let r := Find d b1 fs cols rows
  match (r.2).getD [] with
  | [] => (r.1, .error .noRowsFound)
  | x :: _ => (r.1, .ok x)

/-! ### Fragment bookkeeping lemmas -/

theorem toksStr_append (d : Dialect) (a b : List SqlTok) :
    toksStr d (a ++ b) = toksStr d a ++ toksStr d b := by
  induction a with
  | nil => simp [toksStr]
  | cons t ts ih => cases t <;> simp [toksStr, ih, String.append_assoc]

theorem phsOf_append (a b : List SqlTok) : phsOf (a ++ b) = phsOf a ++ phsOf b := by
  induction a with
  | nil => simp [phsOf]
  | cons t ts ih => cases t <;> simp [phsOf, ih]

theorem phsOf_phToksSep (i n : Nat) : phsOf (phToksSep i n) = List.range' i n :=
  match n with
  | 0 => rfl
  | 1 => rfl
  | n + 2 => by
    have ih := phsOf_phToksSep (i + 1) (n + 1)
    simp [phToksSep, phsOf, ih, List.range'_succ]

theorem toksStr_phToksSep (d : Dialect) (i n : Nat) :
    toksStr d (phToksSep i n) = goJoin ", " ((List.range' i n).map d.placeholder) :=
  match n with
  | 0 => rfl
  | 1 => by simp [phToksSep, toksStr, goJoin, List.range'_one]
  | n + 2 => by
    have ih := toksStr_phToksSep d (i + 1) (n + 1)
    rw [List.range'_succ]
    have hne : (List.range' (i + 1) (n + 1)).map d.placeholder ≠ [] := by
      simp [List.range'_succ]
    simp only [phToksSep, toksStr, ih, List.map_cons]
    cases hmap : (List.range' (i + 1) (n + 1)).map d.placeholder with
    | nil => exact absurd hmap hne
    | cons x xs => simp [goJoin, hmap, String.append_assoc]

theorem phsOf_joinToksSep (sep : String) (parts : List (List SqlTok)) :
    phsOf (joinToksSep sep parts) = (parts.map phsOf).flatten :=
  match parts with
  | [] => rfl
  | [t] => by simp [joinToksSep]
  | t :: t2 :: ts => by
    have ih := phsOf_joinToksSep sep (t2 :: ts)
    simp [joinToksSep, phsOf_append, phsOf, ih]

theorem toksStr_joinToksSep (d : Dialect) (sep : String) (parts : List (List SqlTok)) :
    toksStr d (joinToksSep sep parts) = goJoin sep (parts.map (toksStr d)) :=
  match parts with
  | [] => rfl
  | [t] => by simp [joinToksSep, goJoin]
  | t :: t2 :: ts => by
    have ih := toksStr_joinToksSep d sep (t2 :: ts)
    simp [joinToksSep, toksStr_append, toksStr, ih, goJoin, String.append_assoc]

/-- Per-condition counter invariant: the placeholder positions emitted by a
leaf condition at counter `i` are exactly `i, i+1, ...` — one per emitted
argument — and the counter advances by the number of arguments. -/
theorem buildCondToks_spec (c : Condition) (i : Nat) :
    phsOf (buildCondToks c i).1 = List.range' i (buildCondToks c i).2.1.length ∧
    (buildCondToks c i).2.2 = i + (buildCondToks c i).2.1.length := by
  unfold buildCondToks
  split
  · simp [phsOf]
  split
  · simp [phsOf]
  split
  · simp [phsOf_append, phsOf, phsOf_phToksSep]
  split
  · split
    · simp [phsOf, List.range'_succ]
    · simp [phsOf]
  · simp [phsOf, List.range'_succ]

mutual
/-- Counter invariant for one rendered element. -/
theorem elemToks_spec (e : WhereElem) (i : Nat) :
    phsOf (elemToks e i).1 = List.range' i (elemToks e i).2.1.length ∧
    (elemToks e i).2.2 = i + (elemToks e i).2.1.length :=
  match e with
  | .cond c => buildCondToks_spec c i
  | .group op children => by
    have ih := listToks_spec children i
    simp only [elemToks]
    refine ⟨?_, ih.2⟩
    simp [phsOf, phsOf_append, phsOf_joinToksSep, ih.1]

/-- Counter invariant for a rendered sequence: the per-part placeholder
lists concatenate to the consecutive range starting at `i`, one position
per argument, and the counter advances by the argument count. -/
theorem listToks_spec (l : WhereList) (i : Nat) :
    ((listToks l i).1.map phsOf).flatten = List.range' i (listToks l i).2.1.length ∧
    (listToks l i).2.2 = i + (listToks l i).2.1.length :=
  match l with
  | .nil => by simp [listToks]
  | .cons e rest => by
    have ih1 := elemToks_spec e i
    have ih2 := listToks_spec rest (elemToks e i).2.2
    simp only [listToks, List.map_cons, List.flatten_cons, List.length_append]
    constructor
    · rw [ih1.1, ih2.1, ih1.2, List.range'_append_1, Nat.add_comm]
    · rw [ih2.2, ih1.2]; omega
end

/-- String/fragment agreement for one leaf condition. -/
theorem buildCondition_toks (d : Dialect) (c : Condition) (i : Nat) :
    buildCondition d c i = (toksStr d (buildCondToks c i).1, (buildCondToks c i).2) := by
  unfold buildCondition buildCondToks
  split
  · simp [toksStr]
  split
  · simp [toksStr]
  split
  · simp [toksStr_append, toksStr, toksStr_phToksSep, String.append_assoc]
  split
  · split
    · simp [toksStr, String.append_assoc]
    · simp [toksStr]
  · simp [toksStr, String.append_assoc]

mutual
/-- String/fragment agreement for one rendered element. -/
theorem elemStr_toks (d : Dialect) (e : WhereElem) (i : Nat) :
    elemStr d e i = (toksStr d (elemToks e i).1, (elemToks e i).2) :=
  match e with
  | .cond c => buildCondition_toks d c i
  | .group op children => by
    have ih := listStr_toks d children i
    simp only [elemStr, elemToks, ih]
    simp [toksStr, toksStr_append, toksStr_joinToksSep, String.append_assoc]
/-- String/fragment agreement for a rendered sequence. -/
theorem listStr_toks (d : Dialect) (l : WhereList) (i : Nat) :
    listStr d l i = ((listToks l i).1.map (toksStr d), (listToks l i).2) :=
  match l with
  | .nil => rfl
  | .cons e rest => by
    have ih1 := elemStr_toks d e i
    have ih2 := listStr_toks d rest (elemToks e i).2.2
    simp only [listStr, listToks, ih1, ih2, List.map_cons]
end

end Genus

/-! ## Claim C1 -/

namespace Genus

/-- C1: rendering a WHERE tree threads one counter, starting at 1, in
depth-first left-to-right order over the whole tree: the placeholder
positions appearing in the emitted SQL text (in appearance order) are
exactly `1, 2, ..., n` where `n` is the length of the emitted argument
list, so the k-th argument is the value bound at the k-th placeholder.
The string rendering is the concatenation of the fragments, per dialect.
Per-operator consumption: equality/ordering (and any operator outside the
special-cased set) consume one position binding the condition's value;
IN/NOT IN consume one position per value of the payload in input order;
IS NULL / IS NOT NULL consume zero positions and contribute no
argument. -/
theorem where_placeholder_counter :
    (∀ conds : WhereList,
      phsOf (whereToks conds).1 = List.range' 1 (whereToks conds).2.length) ∧
    (∀ (d : Dialect) (conds : WhereList),
      buildWhereClause d conds = (toksStr d (whereToks conds).1, (whereToks conds).2)) ∧
    (∀ (c : Condition) (i : Nat),
      c.Operator ≠ OpIsNull → c.Operator ≠ OpIsNotNull → c.Operator ≠ OpIn →
      c.Operator ≠ OpNotIn → c.Operator ≠ OpBetween →
      (buildCondToks c i).2.1 = [c.Value] ∧ phsOf (buildCondToks c i).1 = [i] ∧
      (buildCondToks c i).2.2 = i + 1) ∧
    (∀ (c : Condition) (i : Nat), c.Operator = OpIn ∨ c.Operator = OpNotIn →
      (buildCondToks c i).2.1 = interfaceSlice c.Value ∧
      phsOf (buildCondToks c i).1 = List.range' i (interfaceSlice c.Value).length ∧
      (buildCondToks c i).2.2 = i + (interfaceSlice c.Value).length) ∧
    (∀ (c : Condition) (i : Nat), c.Operator = OpIsNull ∨ c.Operator = OpIsNotNull →
      (buildCondToks c i).2.1 = [] ∧ phsOf (buildCondToks c i).1 = [] ∧
      (buildCondToks c i).2.2 = i) := by
  refine ⟨fun conds => ?_, fun d conds => ?_, fun c i h1 h2 h3 h4 h5 => ?_,
    fun c i h => ?_, fun c i h => ?_⟩
  · have h := listToks_spec conds 1
    simp only [whereToks, phsOf_joinToksSep]
    exact h.1
  · have h := listStr_toks d conds 1
    simp only [buildWhereClause, whereToks, h, toksStr_joinToksSep]
  · unfold buildCondToks
    rw [if_neg h1, if_neg h2, if_neg (by tauto), if_neg h5]
    simp [phsOf]
  · unfold buildCondToks
    have h1 : c.Operator ≠ OpIsNull := by
      rcases h with h | h <;> rw [h] <;> decide
    have h2 : c.Operator ≠ OpIsNotNull := by
      rcases h with h | h <;> rw [h] <;> decide
    rw [if_neg h1, if_neg h2, if_pos h]
    simp [phsOf_append, phsOf, phsOf_phToksSep]
  · unfold buildCondToks
    rcases h with h | h
    · rw [if_pos h]; simp [phsOf]
    · have h1 : c.Operator ≠ OpIsNull := by rw [h]; decide
      rw [if_neg h1, if_pos h]; simp [phsOf]

/-- Witness for C1: the counter invariant, the string/fragment agreement
and the per-operator consumption rules instantiated at concrete inputs. -/
theorem where_placeholder_counter_witness :
    phsOf (whereToks c1ExampleTree).1 = List.range' 1 (whereToks c1ExampleTree).2.length ∧
    buildWhereClause postgres c1ExampleTree =
      (toksStr postgres (whereToks c1ExampleTree).1, (whereToks c1ExampleTree).2) ∧
    ((buildCondToks ⟨"age", OpGt, .vInt 18⟩ 1).2.1 = [GoAny.vInt 18] ∧
      phsOf (buildCondToks ⟨"age", OpGt, .vInt 18⟩ 1).1 = [1] ∧
      (buildCondToks ⟨"age", OpGt, .vInt 18⟩ 1).2.2 = 2) ∧
    ((buildCondToks ⟨"name", OpIn, .vListStr ["a", "b"]⟩ 2).2.1 =
        interfaceSlice (GoAny.vListStr ["a", "b"]) ∧
      phsOf (buildCondToks ⟨"name", OpIn, .vListStr ["a", "b"]⟩ 2).1 =
        List.range' 2 (interfaceSlice (GoAny.vListStr ["a", "b"])).length ∧
      (buildCondToks ⟨"name", OpIn, .vListStr ["a", "b"]⟩ 2).2.2 =
        2 + (interfaceSlice (GoAny.vListStr ["a", "b"])).length) ∧
    ((buildCondToks ⟨"email", OpIsNull, .vNil⟩ 4).2.1 = [] ∧
      phsOf (buildCondToks ⟨"email", OpIsNull, .vNil⟩ 4).1 = [] ∧
      (buildCondToks ⟨"email", OpIsNull, .vNil⟩ 4).2.2 = 4) :=
  ⟨where_placeholder_counter.1 c1ExampleTree,
    where_placeholder_counter.2.1 postgres c1ExampleTree,
    where_placeholder_counter.2.2.1 ⟨"age", OpGt, .vInt 18⟩ 1
      (by decide) (by decide) (by decide) (by decide) (by decide),
    where_placeholder_counter.2.2.2.1 ⟨"name", OpIn, .vListStr ["a", "b"]⟩ 2 (Or.inl rfl),
    where_placeholder_counter.2.2.2.2 ⟨"email", OpIsNull, .vNil⟩ 4 (Or.inl rfl)⟩

end Genus

/-! ## Claim C3 -/

namespace Genus

/-- C3 counterexample: a Between condition whose payload holds one value
renders successfully to the empty fragment with no arguments and an
unchanged counter. The render functions of the source return no error at
all (`buildCondition` has no error result), so no render-time error is
produced — refuting the claim's error half. -/
theorem between_malformed_silent_counterexample :
    buildCondition postgres ⟨"age", OpBetween, .vListInt [10]⟩ 1 = ("", [], 1) := rfl

/-- C3 amended: a Between condition with exactly two payload values emits
`field BETWEEN p_i AND p_(i+1)`, consuming two consecutive positions with
arguments in (low, high) order; a Between condition whose payload does not
contain exactly two values renders silently as an empty fragment with no
arguments and no counter movement — no render-time error exists. -/
theorem between_renders :
    (∀ (d : Dialect) (f : String) (v : GoAny) (i : Nat) (lo hi : GoAny),
      interfaceSlice v = [lo, hi] →
      buildCondition d ⟨f, OpBetween, v⟩ i =
        (f ++ " BETWEEN " ++ d.placeholder i ++ " AND " ++ d.placeholder (i + 1),
          [lo, hi], i + 2) ∧
      phsOf (buildCondToks ⟨f, OpBetween, v⟩ i).1 = [i, i + 1]) ∧
    (∀ (d : Dialect) (f : String) (v : GoAny) (i : Nat),
      (interfaceSlice v).length ≠ 2 →
      buildCondition d ⟨f, OpBetween, v⟩ i = ("", [], i)) := by
  constructor
  · intro d f v i lo hi h
    constructor
    · unfold buildCondition
      simp only [h]
      rfl
    · unfold buildCondToks
      simp only [h]
      rfl
  · intro d f v i h
    unfold buildCondition
    rw [if_neg (show ¬(OpBetween = OpIsNull) by decide),
      if_neg (show ¬(OpBetween = OpIsNotNull) by decide),
      if_neg (show ¬(OpBetween = OpIn ∨ OpBetween = OpNotIn) by decide),
      if_pos (show OpBetween = OpBetween from rfl)]
    rcases hv : interfaceSlice v with _ | ⟨a, _ | ⟨b, _ | ⟨x, t⟩⟩⟩
    · rfl
    · rfl
    · rw [hv] at h; simp at h
    · rfl

/-- Witness for C3's amended claim at concrete inputs. -/
theorem between_renders_witness :
    (buildCondition postgres ⟨"age", OpBetween, .vListInt [10, 20]⟩ 1 =
      ("age BETWEEN " ++ postgres.placeholder 1 ++ " AND " ++ postgres.placeholder 2,
        [GoAny.vInt 10, GoAny.vInt 20], 3) ∧
      phsOf (buildCondToks ⟨"age", OpBetween, .vListInt [10, 20]⟩ 1).1 = [1, 2]) ∧
    buildCondition postgres ⟨"age", OpBetween, .vListInt [10, 20, 30]⟩ 1 = ("", [], 1) := by
  constructor
  · have h := between_renders.1 postgres "age" (.vListInt [10, 20]) 1
      (GoAny.vInt 10) (GoAny.vInt 20) rfl
    simpa using h
  · exact between_renders.2 postgres "age" (.vListInt [10, 20, 30]) 1 (by decide)

end Genus

/-! ## Claim C4 -/

namespace Genus

/-- C4 counterexample: a WHERE clause holding a single empty
ConditionGroup renders the malformed empty-parenthesis fragment `()` —
not a no-op. -/
theorem empty_group_malformed_counterexample :
    buildWhereClause postgres (.cons (.group "AND" .nil) .nil) = ("()", []) ∧
    ("()" : String) ≠ "" := ⟨rfl, by decide⟩

/-- C4 amended: an empty ConditionGroup is not rendered as a no-op: at
top level of a WHERE clause it emits exactly `()`, and nested at any
depth it contributes `()` to its parent's parts (so a group holding only
an empty group emits `(())`) — always with no arguments and no counter
movement. -/
theorem empty_group_renders_parens :
    (∀ (d : Dialect) (op : String),
      buildWhereClause d (.cons (.group op .nil) .nil) = ("()", [])) ∧
    (∀ (d : Dialect) (op : String) (i : Nat),
      elemStr d (.group op .nil) i = ("()", [], i)) ∧
    (∀ (d : Dialect) (op op2 : String) (i : Nat),
      elemStr d (.group op2 (.cons (.group op .nil) .nil)) i = ("(())", [], i)) := by
  refine ⟨fun d op => ?_, fun d op i => ?_, fun d op op2 i => ?_⟩
  · simp [buildWhereClause, listStr, elemStr, goJoin]
  · simp [elemStr, listStr, goJoin]
  · simp [elemStr, listStr, goJoin]

end Genus

/-! ## Claim C9 -/

namespace Genus

/-- C9: `Not` returns its argument unchanged for Gt, Gte, Lt, Lte, Like,
NotLike and Between (no inversion, no error is even possible — the function
has no error channel), and `Not` is an involution on every leaf
`Condition`. -/
theorem not_fixes_noninvertible_and_involutive :
    (∀ c : Condition,
      c.Operator = OpGt ∨ c.Operator = OpGte ∨ c.Operator = OpLt ∨
      c.Operator = OpLte ∨ c.Operator = OpLike ∨ c.Operator = OpNotLike ∨
      c.Operator = OpBetween → Not c = c) ∧
    ∀ c : Condition, Not (Not c) = c := by
  constructor
  · rintro ⟨f, op, v⟩ h
    dsimp only at h
    rcases h with h | h | h | h | h | h | h <;> subst h <;> rfl
  · rintro ⟨f, op, v⟩
    by_cases h1 : op = OpEq
    · subst h1; rfl
    by_cases h2 : op = OpNe
    · subst h2; rfl
    by_cases h3 : op = OpIsNull
    · subst h3; rfl
    by_cases h4 : op = OpIsNotNull
    · subst h4; rfl
    by_cases h5 : op = OpIn
    · subst h5; rfl
    by_cases h6 : op = OpNotIn
    · subst h6; rfl
    have hfix : Not ⟨f, op, v⟩ = ⟨f, op, v⟩ := by
      unfold Not
      dsimp only
      rw [if_neg h1, if_neg h2, if_neg h3, if_neg h4, if_neg h5, if_neg h6]
    rw [hfix, hfix]

/-- Witness for C9 at a concrete condition: `Not` fixes a Gt condition and
double-`Not` restores an Eq condition. -/
theorem not_fixes_noninvertible_witness :
    Not { Field := "age", Operator := OpGt, Value := .vInt 18 } =
      { Field := "age", Operator := OpGt, Value := .vInt 18 } ∧
    Not (Not { Field := "age", Operator := OpEq, Value := .vInt 18 }) =
      { Field := "age", Operator := OpEq, Value := .vInt 18 } :=
  ⟨not_fixes_noninvertible_and_involutive.1
      { Field := "age", Operator := OpGt, Value := .vInt 18 } (Or.inl rfl),
    not_fixes_noninvertible_and_involutive.2
      { Field := "age", Operator := OpEq, Value := .vInt 18 }⟩

/-! ## Claim C8 -/

/-- C8: the Optional encode/decode pair round-trips in both states:
`Value` of `None[int]()` is the backend null and scanning it back into a
fresh Optional yields an absent Optional equal to `None[int]()`; `Value` of
`Some(v)` is `v`'s representation and scanning it back yields `Some(v)`. -/
theorem optional_roundtrip :
    valueOptInt noneInt = DbValue.dbNull ∧
    scanOptInt noneInt (valueOptInt noneInt) = .ok noneInt ∧
    ∀ v : Int, scanOptInt noneInt (valueOptInt (someInt v)) = .ok (someInt v) := by
  refine ⟨rfl, rfl, fun v => ?_⟩
  simp [valueOptInt, someInt, noneInt, scanOptInt]

end Genus

/-! ## Field-map journal lemmas -/

namespace Genus

theorem lastLookup_append (b : List (String × FieldPath)) (k : String) :
    ∀ a : List (String × FieldPath),
    lastLookup (a ++ b) k =
      match lastLookup b k with
      | some v => some v
      | none => lastLookup a k := by
  intro a
  induction a with
  | nil => cases h : lastLookup b k <;> simp [lastLookup, h]
  | cons e rest ih =>
    have h1 : lastLookup ((e :: rest) ++ b) k =
        (match lastLookup (rest ++ b) k with
         | some v => some v
         | none => if e.1 = k then some e.2 else none) := rfl
    have h2 : lastLookup (e :: rest) k =
        (match lastLookup rest k with
         | some v => some v
         | none => if e.1 = k then some e.2 else none) := rfl
    rw [h1, ih, h2]
    cases h : lastLookup b k
    · rfl
    · rfl

theorem lastLookup_mem (k : String) (v : FieldPath) :
    ∀ l : List (String × FieldPath), lastLookup l k = some v → (k, v) ∈ l := by
  intro l
  induction l with
  | nil => intro h; simp [lastLookup] at h
  | cons e rest ih =>
    intro h
    simp only [lastLookup] at h
    cases h2 : lastLookup rest k with
    | some w =>
      rw [h2] at h
      exact List.mem_cons_of_mem _ (ih (h2.trans h))
    | none =>
      rw [h2] at h
      by_cases he : e.1 = k
      · rw [if_pos he] at h
        obtain ⟨e1, e2⟩ := e
        simp only at he
        subst he
        simp only [Option.some.injEq] at h
        subst h
        exact List.mem_cons_self _ _
      · rw [if_neg he] at h
        exact absurd h (by simp)

theorem mem_lastLookup_isSome (k : String) (v : FieldPath) :
    ∀ l : List (String × FieldPath), (k, v) ∈ l → (lastLookup l k).isSome := by
  intro l
  induction l with
  | nil => intro h; simp at h
  | cons e rest ih =>
    intro h
    simp only [lastLookup]
    rcases List.mem_cons.1 h with h | h
    · cases h2 : lastLookup rest k
      · simp [← h]
      · simp
    · have := ih h
      cases h2 : lastLookup rest k
      · rw [h2] at this; simp at this
      · simp

/-- The value of `buildFieldsMap` at any key is the last matching write of
the declaration journal (prefixed by the parent path), falling back to the
accumulator. -/
theorem buildFieldsMap_eq (fs : GoFields) :
    ∀ (pp : FieldPath) (i : Nat) (acc : FMap) (k : String),
    buildFieldsMap fs pp i acc k =
      match lastLookup ((declsJ fs i).map (fun e => (e.1, pp ++ e.2))) k with
      | some v => some v
      | none => acc k :=
  match fs with
  | .nil => by intro pp i acc k; simp [buildFieldsMap, declsJ, lastLookup]
  | .named tag ty rest => by
    intro pp i acc k
    have ihr := buildFieldsMap_eq rest
    simp only [buildFieldsMap, declsJ, List.map_append, lastLookup_append]
    rw [ihr]
    cases h : lastLookup ((declsJ rest (i + 1)).map fun e => (e.1, pp ++ e.2)) k
    · simp only
      by_cases ht : tag = "" ∨ tag = "-"
      · simp [ht, lastLookup]
      · simp only [ht, if_false, List.map_cons, List.map_nil, lastLookup, fmapInsert]
        by_cases he : tag = k
        · simp [he]
        · have hke : ¬(k = tag) := fun hk => he hk.symm
          simp [he, hke]
    · simp
  | .anon efs rest => by
    intro pp i acc k
    have ihe := buildFieldsMap_eq efs
    have ihr := buildFieldsMap_eq rest
    simp only [buildFieldsMap, declsJ, List.map_append, lastLookup_append]
    rw [ihr]
    have hmap : (List.map (fun e => (e.1, i :: e.2)) (declsJ efs 0)).map
        (fun e => (e.1, pp ++ e.2)) =
        (declsJ efs 0).map (fun e => (e.1, (pp ++ [i]) ++ e.2)) := by
      rw [List.map_map]
      apply List.map_congr_left
      intro e _
      simp [List.append_assoc]
    rw [hmap]
    cases h : lastLookup ((declsJ rest (i + 1)).map fun e => (e.1, pp ++ e.2)) k
    · simp only [fmapMerge]
      rw [ihe (pp ++ [i]) 0 fmapEmpty k]
      cases h2 : lastLookup ((declsJ efs 0).map fun e => (e.1, pp ++ [i] ++ e.2)) k <;>
        simp only [fmapEmpty]
    · simp

/-- `buildFieldMap` is last-write lookup over the declaration journal. -/
theorem buildFieldMap_eq (fs : GoFields) (k : String) :
    buildFieldMap fs k = lastLookup (declsJ fs 0) k := by
  unfold buildFieldMap
  rw [buildFieldsMap_eq]
  have hmap : (declsJ fs 0).map (fun e => (e.1, ([] : FieldPath) ++ e.2)) = declsJ fs 0 := by
    have : ∀ l : List (String × FieldPath),
        l.map (fun e => (e.1, ([] : FieldPath) ++ e.2)) = l := by
      intro l
      induction l with
      | nil => rfl
      | cons e r ih => simp [ih]
    exact this _
  rw [hmap]
  cases h : lastLookup (declsJ fs 0) k <;> simp [fmapEmpty, h]

/-- Folding Go map writes over a journal: the final value at a key is the
last write, falling back to the initial map. -/
theorem foldl_fmapInsert_eq (k : String) :
    ∀ (l : List (String × FieldPath)) (m : FMap),
    l.foldl (fun acc e => fmapInsert acc e.1 e.2) m k =
      match lastLookup l k with
      | some v => some v
      | none => m k := by
  intro l
  induction l with
  | nil => intro m; simp [lastLookup]
  | cons e rest ih =>
    intro m
    have h1 : (e :: rest).foldl (fun acc e => fmapInsert acc e.1 e.2) m =
        rest.foldl (fun acc e => fmapInsert acc e.1 e.2) (fmapInsert m e.1 e.2) := rfl
    have h2 : lastLookup (e :: rest) k =
        (match lastLookup rest k with
         | some v => some v
         | none => if e.1 = k then some e.2 else none) := rfl
    rw [h1, ih, h2]
    obtain ⟨e1, e2⟩ := e
    cases h : lastLookup rest k <;> simp only [h, fmapInsert]
    by_cases he : e1 = k
    · subst he
      simp
    · have hke : ¬(k = e1) := fun hk => he hk.symm
      simp [he, hke]

end Genus

/-! ## Claim C10 -/

namespace Genus

/-- C10: the embedded-versus-direct column collision policy of
`buildFieldMapWithPrefix` is deterministic: a column maps to the path of
the declaration registered later in struct declaration order (the whole
map equals last-write lookup over the flattened declaration journal, in
which an embedded field's contributions sit at the embedded field's
position), and the embedded-map merge loop — Go's nondeterministically
ordered `range` over the embedded map — produces the same map for every
enumeration of the embedded map's entries. -/
theorem fieldmap_collision_last_wins :
    (∀ (fs : GoFields) (k : String),
      buildFieldMap fs k = lastLookup (declsJ fs 0) k) ∧
    (∀ (m em : FMap) (l : List (String × FieldPath)),
      (∀ k v, (k, v) ∈ l ↔ em k = some v) →
      ∀ k, l.foldl (fun acc e => fmapInsert acc e.1 e.2) m k = fmapMerge m em k) := by
  constructor
  · exact buildFieldMap_eq
  · intro m em l henum k
    rw [foldl_fmapInsert_eq]
    have hlook : lastLookup l k = em k := by
      cases hem : em k with
      | some v =>
        have hmem : (k, v) ∈ l := (henum k v).2 hem
        have hsome := mem_lastLookup_isSome k v l hmem
        cases hll : lastLookup l k with
        | none => rw [hll] at hsome; simp at hsome
        | some w =>
          have : (k, w) ∈ l := lastLookup_mem k w l hll
          have : em k = some w := (henum k w).1 this
          rw [hem] at this
          exact this.symm
      | none =>
        cases hll : lastLookup l k with
        | none => rfl
        | some w =>
          have : (k, w) ∈ l := lastLookup_mem k w l hll
          have : em k = some w := (henum k w).1 this
          rw [hem] at this
          exact absurd this (by simp)
    rw [hlook, fmapMerge]

/-- Witness for C10: the journal policy on the example record (the direct
`name` field wins nothing here, but `buildFieldMap` agrees with last-write
journal lookup on every column), and a concrete one-entry enumeration of
an embedded map merged into a map, matching `fmapMerge`. -/
theorem fieldmap_collision_last_wins_witness :
    buildFieldMap exUserFields "id" = lastLookup (declsJ exUserFields 0) "id" ∧
    ((∀ k v, (k, v) ∈ [("id", ([0] : FieldPath))] ↔
        fmapInsert fmapEmpty "id" [0] k = some v) ∧
      [("id", ([0] : FieldPath))].foldl (fun acc e => fmapInsert acc e.1 e.2)
          fmapEmpty "id" =
        fmapMerge fmapEmpty (fmapInsert fmapEmpty "id" [0]) "id") := by
  have henum : ∀ k v, (k, v) ∈ [("id", ([0] : FieldPath))] ↔
      fmapInsert fmapEmpty "id" [0] k = some v := by
    intro k v
    constructor
    · intro h
      simp only [List.mem_singleton, Prod.mk.injEq] at h
      obtain ⟨rfl, rfl⟩ := h
      rfl
    · intro h
      by_cases hk : k = "id"
      · subst hk
        have h0 : fmapInsert fmapEmpty "id" [0] "id" = some [0] := rfl
        rw [h0] at h
        obtain rfl : ([0] : FieldPath) = v := by
          exact Option.some.inj h
        simp
      · have h0 : fmapInsert fmapEmpty "id" [0] k = none := by
          simp [fmapInsert, fmapEmpty, hk]
        rw [h0] at h
        exact absurd h (by simp)
  exact ⟨fieldmap_collision_last_wins.1 exUserFields "id",
    henum,
    fieldmap_collision_last_wins.2 fmapEmpty (fmapInsert fmapEmpty "id" [0])
      [("id", [0])] henum "id"⟩

end Genus

/-! ## Declaration-journal structure lemmas -/

namespace Genus

/-- Every journal entry's path starts with a field index at or beyond the
journal's starting index. -/
theorem declsJ_shape (fs : GoFields) :
    ∀ (i : Nat) (k : String) (p : FieldPath), (k, p) ∈ declsJ fs i →
    ∃ j q, p = j :: q ∧ i ≤ j :=
  match fs with
  | .nil => by intro i k p h; simp [declsJ] at h
  | .named tag ty rest => by
    intro i k p h
    simp only [declsJ, List.mem_append] at h
    rcases h with h | h
    · by_cases ht : tag = "" ∨ tag = "-"
      · simp [ht] at h
      · simp only [ht, if_false, List.mem_singleton, Prod.mk.injEq] at h
        exact ⟨i, [], h.2, Nat.le_refl i⟩
    · obtain ⟨j, q, hp, hij⟩ := declsJ_shape rest (i + 1) k p h
      exact ⟨j, q, hp, by omega⟩
  | .anon efs rest => by
    intro i k p h
    simp only [declsJ, List.mem_append, List.mem_map] at h
    rcases h with ⟨e, _, heq⟩ | h
    · exact ⟨i, e.2, (congrArg Prod.snd heq).symm, Nat.le_refl i⟩
    · obtain ⟨j, q, hp, hij⟩ := declsJ_shape rest (i + 1) k p h
      exact ⟨j, q, hp, by omega⟩

/-- Two journal entries with the same path carry the same column: a path
identifies one declaration site and a site declares one column. -/
theorem declsJ_inj (fs : GoFields) :
    ∀ (i : Nat) (k1 k2 : String) (p : FieldPath),
    (k1, p) ∈ declsJ fs i → (k2, p) ∈ declsJ fs i → k1 = k2 :=
  match fs with
  | .nil => by intro i k1 k2 p h; simp [declsJ] at h
  | .named tag ty rest => by
    intro i k1 k2 p h1 h2
    simp only [declsJ, List.mem_append] at h1 h2
    by_cases ht : tag = "" ∨ tag = "-"
    · simp only [ht, if_true, List.not_mem_nil, false_or] at h1 h2
      exact declsJ_inj rest (i + 1) k1 k2 p h1 h2
    · simp only [ht, if_false, List.mem_singleton, Prod.mk.injEq] at h1 h2
      rcases h1 with ⟨hk1, hp1⟩ | h1
      · rcases h2 with ⟨hk2, hp2⟩ | h2
        · rw [hk1, hk2]
        · obtain ⟨j, q, hp, hij⟩ := declsJ_shape rest (i + 1) k2 p h2
          rw [hp1] at hp
          simp only [List.cons.injEq] at hp
          omega
      · rcases h2 with ⟨hk2, hp2⟩ | h2
        · obtain ⟨j, q, hp, hij⟩ := declsJ_shape rest (i + 1) k1 p h1
          rw [hp2] at hp
          simp only [List.cons.injEq] at hp
          omega
        · exact declsJ_inj rest (i + 1) k1 k2 p h1 h2
  | .anon efs rest => by
    intro i k1 k2 p h1 h2
    simp only [declsJ, List.mem_append, List.mem_map] at h1 h2
    rcases h1 with ⟨e1, he1, heq1⟩ | h1
    · rcases h2 with ⟨e2, he2, heq2⟩ | h2
      · have hk1 : e1.1 = k1 := congrArg Prod.fst heq1
        have hp1 : (i :: e1.2 : FieldPath) = p := congrArg Prod.snd heq1
        have hk2 : e2.1 = k2 := congrArg Prod.fst heq2
        have hp2 : (i :: e2.2 : FieldPath) = p := congrArg Prod.snd heq2
        rw [← hp2] at hp1
        simp only [List.cons.injEq] at hp1
        have he1' : (k1, e1.2) ∈ declsJ efs 0 := by
          rw [← hk1]; exact he1
        have he2' : (k2, e2.2) ∈ declsJ efs 0 := by
          rw [← hk2]; exact he2
        
        rw [hp1.2] at he1'
        exact declsJ_inj efs 0 k1 k2 e2.2 he1' he2'
      · obtain ⟨j, q, hp, hij⟩ := declsJ_shape rest (i + 1) k2 p h2
        have hp1 : p = i :: e1.2 := (congrArg Prod.snd heq1).symm
        rw [hp1] at hp
        simp only [List.cons.injEq] at hp
        omega
    · rcases h2 with ⟨e2, he2, heq2⟩ | h2
      · obtain ⟨j, q, hp, hij⟩ := declsJ_shape rest (i + 1) k1 p h1
        have hp2 : p = i :: e2.2 := (congrArg Prod.snd heq2).symm
        rw [hp2] at hp
        simp only [List.cons.injEq] at hp
        omega
      · exact declsJ_inj rest (i + 1) k1 k2 p h1 h2

/-- Distinct journal paths are never prefixes of one another: a proper
extension of a named-field path would have to pass through an anonymous
field at the same position. -/
theorem declsJ_prefix_free (fs : GoFields) :
    ∀ (i : Nat) (k1 k2 : String) (p1 p2 : FieldPath),
    (k1, p1) ∈ declsJ fs i → (k2, p2) ∈ declsJ fs i → p1 ≠ p2 → ¬ p1 <+: p2 :=
  match fs with
  | .nil => by intro i k1 k2 p1 p2 h; simp [declsJ] at h
  | .named tag ty rest => by
    intro i k1 k2 p1 p2 h1 h2 hne
    simp only [declsJ, List.mem_append] at h1 h2
    by_cases ht : tag = "" ∨ tag = "-"
    · simp only [ht, if_true, List.not_mem_nil, false_or] at h1 h2
      exact declsJ_prefix_free rest (i + 1) k1 k2 p1 p2 h1 h2 hne
    · simp only [ht, if_false, List.mem_singleton, Prod.mk.injEq] at h1 h2
      rcases h1 with ⟨hk1, hp1⟩ | h1
      · rcases h2 with ⟨hk2, hp2⟩ | h2
        · rw [hp1, hp2] at hne; simp at hne
        · obtain ⟨j, q, hp, hij⟩ := declsJ_shape rest (i + 1) k2 p2 h2
          rw [hp1, hp]
          intro hpre
          rw [List.cons_prefix_cons] at hpre
          omega
      · rcases h2 with ⟨hk2, hp2⟩ | h2
        · obtain ⟨j, q, hp, hij⟩ := declsJ_shape rest (i + 1) k1 p1 h1
          rw [hp2, hp]
          intro hpre
          rw [List.cons_prefix_cons] at hpre
          omega
        · exact declsJ_prefix_free rest (i + 1) k1 k2 p1 p2 h1 h2 hne
  | .anon efs rest => by
    intro i k1 k2 p1 p2 h1 h2 hne
    simp only [declsJ, List.mem_append, List.mem_map] at h1 h2
    rcases h1 with ⟨e1, he1, heq1⟩ | h1
    · rcases h2 with ⟨e2, he2, heq2⟩ | h2
      · have hp1 : p1 = i :: e1.2 := (congrArg Prod.snd heq1).symm
        have hp2 : p2 = i :: e2.2 := (congrArg Prod.snd heq2).symm
        have hk1 : k1 = e1.1 := (congrArg Prod.fst heq1).symm
        have hk2 : k2 = e2.1 := (congrArg Prod.fst heq2).symm
        rw [hp1, hp2]
        intro hpre
        rw [List.cons_prefix_cons] at hpre
        have htails : e1.2 ≠ e2.2 := by
          intro hq
          rw [hp1, hp2, hq] at hne
          exact hne rfl
        have he1' : (e1.1, e1.2) ∈ declsJ efs 0 := he1
        have he2' : (e2.1, e2.2) ∈ declsJ efs 0 := he2
        exact declsJ_prefix_free efs 0 e1.1 e2.1 e1.2 e2.2 he1' he2' htails hpre.2
      · obtain ⟨j, q, hp, hij⟩ := declsJ_shape rest (i + 1) k2 p2 h2
        have hp1 : p1 = i :: e1.2 := (congrArg Prod.snd heq1).symm
        rw [hp1, hp]
        intro hpre
        rw [List.cons_prefix_cons] at hpre
        omega
    · rcases h2 with ⟨e2, he2, heq2⟩ | h2
      · obtain ⟨j, q, hp, hij⟩ := declsJ_shape rest (i + 1) k1 p1 h1
        have hp2 : p2 = i :: e2.2 := (congrArg Prod.snd heq2).symm
        rw [hp2, hp]
        intro hpre
        rw [List.cons_prefix_cons] at hpre
        omega
      · exact declsJ_prefix_free rest (i + 1) k1 k2 p1 p2 h1 h2 hne

/-- In a conforming instance whose tagged fields are primitive, every
journal path addresses a leaf. -/
theorem declsJ_resolves (fs : GoFields) :
    ∀ (i : Nat) (vs : GoVals) (k : String) (j : Nat) (q : FieldPath),
    confVals vs fs = true → primTagged fs = true →
    (k, j :: q) ∈ declsJ fs i →
    ∃ a : GoAny, getPathVs vs i j q = some (.leaf a) :=
  match fs with
  | .nil => by intro i vs k j q _ _ h; simp [declsJ] at h
  | .named tag ty rest => by
    intro i vs k j q hconf hprim hmem
    cases vs with
    | nil => simp [confVals] at hconf
    | cons v vrest =>
      simp only [confVals, Bool.and_eq_true] at hconf
      simp only [primTagged, Bool.and_eq_true] at hprim
      simp only [declsJ, List.mem_append] at hmem
      by_cases ht : tag = "" ∨ tag = "-"
      · simp only [ht, if_true, List.not_mem_nil, false_or] at hmem
        obtain ⟨j', q', hp, hij⟩ := declsJ_shape rest (i + 1) k (j :: q) hmem
        simp only [List.cons.injEq] at hp
        have hji : j ≠ i := by omega
        have : getPathVs (GoVals.cons v vrest) i j q = getPathVs vrest (i + 1) j q := by
          simp [getPathVs, hji]
        rw [this]
        exact declsJ_resolves rest (i + 1) vrest k j q hconf.2 hprim.2 hmem
      · simp only [ht, if_false, List.mem_singleton, Prod.mk.injEq] at hmem
        rcases hmem with ⟨hk, hp⟩ | hmem
        · simp only [List.cons.injEq] at hp
          obtain ⟨hji, hq⟩ := hp
          have hty : ty = GoTy.prim := by
            rcases hprim.1 with hcond
            rw [if_neg ht] at hcond
            cases ty with
            | prim => rfl
            | strct _ => simp at hcond
          rw [hty] at hconf
          have hv : ∃ a, v = GoVal.leaf a := by
            cases v with
            | leaf a => exact ⟨a, rfl⟩
            | strct _ => simp [confVal] at hconf
          obtain ⟨a, rfl⟩ := hv
          refine ⟨a, ?_⟩
          rw [hji, hq]
          simp [getPathVs, getPathV]
        · obtain ⟨j', q', hp, hij⟩ := declsJ_shape rest (i + 1) k (j :: q) hmem
          simp only [List.cons.injEq] at hp
          have hji : j ≠ i := by omega
          have : getPathVs (GoVals.cons v vrest) i j q = getPathVs vrest (i + 1) j q := by
            simp [getPathVs, hji]
          rw [this]
          exact declsJ_resolves rest (i + 1) vrest k j q hconf.2 hprim.2 hmem
  | .anon efs rest => by
    intro i vs k j q hconf hprim hmem
    cases vs with
    | nil => simp [confVals] at hconf
    | cons v vrest =>
      simp only [confVals, Bool.and_eq_true] at hconf
      simp only [primTagged, Bool.and_eq_true] at hprim
      simp only [declsJ, List.mem_append, List.mem_map] at hmem
      rcases hmem with ⟨e, he, heq⟩ | hmem
      · have hpq : (i :: e.2 : FieldPath) = j :: q := congrArg Prod.snd heq
        simp only [List.cons.injEq] at hpq
        have hji : j = i := hpq.1.symm
        have hq : q = e.2 := hpq.2.symm
        obtain ⟨evs, rfl, hconfe⟩ : ∃ evs, v = GoVal.strct evs ∧ confVals evs efs = true := by
          cases v with
          | leaf a => simp [confVal] at hconf
          | strct evs => exact ⟨evs, rfl, by simpa [confVal] using hconf.1⟩
        have he' : (e.1, e.2) ∈ declsJ efs 0 := he
        obtain ⟨j', q', hshape, _⟩ := declsJ_shape efs 0 e.1 e.2 he'
        rw [hshape] at he'
        obtain ⟨a, ha⟩ := declsJ_resolves efs 0 evs e.1 j' q' hconfe hprim.1 he'
        refine ⟨a, ?_⟩
        rw [hji, hq, hshape]
        simp only [getPathVs, if_pos rfl]
        simp only [getPathV]
        exact ha
      · obtain ⟨j', q', hp, hij⟩ := declsJ_shape rest (i + 1) k (j :: q) hmem
        simp only [List.cons.injEq] at hp
        have hji : j ≠ i := by omega
        have : getPathVs (GoVals.cons v vrest) i j q = getPathVs vrest (i + 1) j q := by
          simp [getPathVs, hji]
        rw [this]
        exact declsJ_resolves rest (i + 1) vrest k j q hconf.2 hprim.2 hmem

end Genus

/-! ## Path read/write lemmas -/

namespace Genus

mutual
/-- Writing through a valid path and reading it back yields the written
leaf. -/
theorem getPathV_set_same (v : GoVal) (p : FieldPath) (a : GoAny)
    (h : (getPathV v p).isSome) :
    getPathV (setPathV v p a) p = some (.leaf a) :=
  match v, p with
  | v, [] => by cases v <;> rfl
  | .leaf _, _ :: _ => by simp [getPathV] at h
  | .strct vs, j :: q => getPathVs_set_same vs 0 j q a h
/-- Index-threaded version of `getPathV_set_same`. -/
theorem getPathVs_set_same (vs : GoVals) (i j : Nat) (q : FieldPath) (a : GoAny)
    (h : (getPathVs vs i j q).isSome) :
    getPathVs (setPathVs vs i j q a) i j q = some (.leaf a) :=
  match vs with
  | .nil => by simp [getPathVs] at h
  | .cons v rest => by
    by_cases hj : j = i
    · have hset : setPathVs (GoVals.cons v rest) i j q a =
          GoVals.cons (setPathV v q a) rest := by
        simp [setPathVs, hj]
      rw [hset]
      have hget : getPathVs (GoVals.cons (setPathV v q a) rest) i j q =
          getPathV (setPathV v q a) q := by
        simp [getPathVs, hj]
      rw [hget]
      have hh : (getPathV v q).isSome := by
        have : getPathVs (GoVals.cons v rest) i j q = getPathV v q := by
          simp [getPathVs, hj]
        rw [this] at h
        exact h
      exact getPathV_set_same v q a hh
    · have hset : setPathVs (GoVals.cons v rest) i j q a =
          GoVals.cons v (setPathVs rest (i + 1) j q a) := by
        simp [setPathVs, hj]
      rw [hset]
      have hget1 : getPathVs (GoVals.cons v (setPathVs rest (i + 1) j q a)) i j q =
          getPathVs (setPathVs rest (i + 1) j q a) (i + 1) j q := by
        simp [getPathVs, hj]
      have hget2 : getPathVs (GoVals.cons v rest) i j q =
          getPathVs rest (i + 1) j q := by
        simp [getPathVs, hj]
      rw [hget1]
      rw [hget2] at h
      exact getPathVs_set_same rest (i + 1) j q a h
end

mutual
/-- A write along one path leaves reads along a prefix-unrelated path
unchanged. -/
theorem getPathV_set_other (v : GoVal) (p pw : FieldPath) (a : GoAny)
    (h1 : ¬ pw <+: p) (h2 : ¬ p <+: pw) :
    getPathV (setPathV v pw a) p = getPathV v p :=
  match p, pw, v with
  | [], _, _ => absurd (List.nil_prefix) h2
  | _ :: _, [], _ => absurd (List.nil_prefix) h1
  | _ :: _, _ :: _, .leaf _ => rfl
  | j :: q, jw :: qw, .strct vs => getPathVs_set_other vs 0 j q jw qw a h1 h2
/-- Index-threaded version of `getPathV_set_other`. -/
theorem getPathVs_set_other (vs : GoVals) (i j : Nat) (q : FieldPath)
    (jw : Nat) (qw : FieldPath) (a : GoAny)
    (h1 : ¬ (jw :: qw) <+: (j :: q)) (h2 : ¬ (j :: q) <+: (jw :: qw)) :
    getPathVs (setPathVs vs i jw qw a) i j q = getPathVs vs i j q :=
  match vs with
  | .nil => by simp [setPathVs]
  | .cons v rest => by
    by_cases hjw : jw = i
    · have hset : setPathVs (GoVals.cons v rest) i jw qw a =
          GoVals.cons (setPathV v qw a) rest := by
        simp [setPathVs, hjw]
      rw [hset]
      by_cases hj : j = i
      · have hjj : j = jw := by omega
        have hq1 : ¬ qw <+: q := fun hq =>
          h1 ((List.cons_prefix_cons).2 ⟨by omega, hq⟩)
        have hq2 : ¬ q <+: qw := fun hq =>
          h2 ((List.cons_prefix_cons).2 ⟨by omega, hq⟩)
        have hgl : getPathVs (GoVals.cons (setPathV v qw a) rest) i j q =
            getPathV (setPathV v qw a) q := by
          simp [getPathVs, hj]
        have hgr : getPathVs (GoVals.cons v rest) i j q = getPathV v q := by
          simp [getPathVs, hj]
        rw [hgl, hgr]
        exact getPathV_set_other v q qw a hq1 hq2
      · have hgl : getPathVs (GoVals.cons (setPathV v qw a) rest) i j q =
            getPathVs rest (i + 1) j q := by
          simp [getPathVs, hj]
        have hgr : getPathVs (GoVals.cons v rest) i j q =
            getPathVs rest (i + 1) j q := by
          simp [getPathVs, hj]
        rw [hgl, hgr]
    · have hset : setPathVs (GoVals.cons v rest) i jw qw a =
          GoVals.cons v (setPathVs rest (i + 1) jw qw a) := by
        simp [setPathVs, hjw]
      rw [hset]
      by_cases hj : j = i
      · have hgl : getPathVs (GoVals.cons v (setPathVs rest (i + 1) jw qw a)) i j q =
            getPathV v q := by
          simp [getPathVs, hj]
        have hgr : getPathVs (GoVals.cons v rest) i j q = getPathV v q := by
          simp [getPathVs, hj]
        rw [hgl, hgr]
      · have hgl : getPathVs (GoVals.cons v (setPathVs rest (i + 1) jw qw a)) i j q =
            getPathVs (setPathVs rest (i + 1) jw qw a) (i + 1) j q := by
          simp [getPathVs, hj]
        have hgr : getPathVs (GoVals.cons v rest) i j q =
            getPathVs rest (i + 1) j q := by
          simp [getPathVs, hj]
        rw [hgl, hgr]
        exact getPathVs_set_other rest (i + 1) j q jw qw a h1 h2
end

/-- Scan steps whose resolved paths are prefix-unrelated to `p` do not
change the value read at `p`. -/
theorem scan_fold_preserve (fm : FMap) (dest : GoVal) (p : FieldPath) :
    ∀ (pairs : List (String × GoAny)) (acc : GoVal),
    (∀ c' v' p', (c', v') ∈ pairs → fm c' = some p' → ¬ p' <+: p ∧ ¬ p <+: p') →
    getPathV (pairs.foldl (scanStep fm dest) acc) p = getPathV acc p := by
  intro pairs
  induction pairs with
  | nil => intro acc _; rfl
  | cons cv rest ih =>
    intro acc hno
    rw [List.foldl_cons]
    rw [ih (scanStep fm dest acc cv)
      (fun c' v' p' hm hf => hno c' v' p' (List.mem_cons_of_mem _ hm) hf)]
    unfold scanStep
    cases hfm : fm cv.1 with
    | none => rfl
    | some pw =>
      dsimp only
      by_cases hv : (getPathV dest pw).isSome
      · rw [if_pos hv]
        have hsep := hno cv.1 cv.2 pw (by exact List.mem_cons_self _ _) hfm
        exact getPathV_set_other acc p pw cv.2 hsep.1 hsep.2
      · rw [if_neg hv]

/-- The column of one scanned pair ends up written at its resolved path
after the whole scan, provided the column list has no duplicates and the
other resolved paths are prefix-unrelated. -/
theorem scan_fold_write (fm : FMap) (dest : GoVal) :
    ∀ (pairs : List (String × GoAny)) (acc : GoVal)
      (c : String) (v : GoAny) (p : FieldPath),
    (c, v) ∈ pairs →
    fm c = some p →
    (getPathV dest p).isSome →
    getPathV acc p = getPathV dest p →
    (pairs.map Prod.fst).Nodup →
    (∀ c' p', fm c' = some p' → c' ≠ c → ¬ p' <+: p ∧ ¬ p <+: p') →
    getPathV (pairs.foldl (scanStep fm dest) acc) p = some (.leaf v) := by
  intro pairs
  induction pairs with
  | nil => intro acc c v p hmem; simp at hmem
  | cons cv rest ih =>
    intro acc c v p hmem hfm hvalid hacc hnodup hsep
    have hnodup' : (rest.map Prod.fst).Nodup := by
      simp only [List.map_cons, List.nodup_cons] at hnodup
      exact hnodup.2
    have hheadnotin : cv.1 ∉ rest.map Prod.fst := by
      simp only [List.map_cons, List.nodup_cons] at hnodup
      exact hnodup.1
    rcases List.mem_cons.1 hmem with heq | hmem'
    · have hcv : cv = (c, v) := heq.symm
      subst hcv
      have hstep : scanStep fm dest acc (c, v) = setPathV acc p v := by
        unfold scanStep
        rw [hfm]
        dsimp only
        rw [if_pos hvalid]
      rw [List.foldl_cons, hstep]
      rw [scan_fold_preserve fm dest p rest (setPathV acc p v) ?hno]
      case hno =>
        intro c' v' p' hm hfm'
        have hc : c' ≠ c := by
          intro hcc
          subst hcc
          exact hheadnotin (List.mem_map.2 ⟨(c', v'), hm, rfl⟩)
        exact hsep c' p' hfm' hc
      apply getPathV_set_same
      rw [hacc]
      exact hvalid
    · have hc0 : cv.1 ≠ c := by
        intro h
        exact hheadnotin (h ▸ List.mem_map.2 ⟨(c, v), hmem', rfl⟩)
      have hstep : getPathV (scanStep fm dest acc cv) p = getPathV dest p := by
        unfold scanStep
        cases hfm' : fm cv.1 with
        | none => exact hacc
        | some pw =>
          dsimp only
          by_cases hv : (getPathV dest pw).isSome
          · rw [if_pos hv]
            have hsep' := hsep cv.1 pw hfm' hc0
            rw [getPathV_set_other acc p pw cv.2 hsep'.1 hsep'.2]
            exact hacc
          · rw [if_neg hv]
            exact hacc
      rw [List.foldl_cons]
      exact ih (scanStep fm dest acc cv) c v p hmem' hfm hvalid hstep hnodup' hsep

end Genus

/-! ## Claim C7 -/

namespace Genus

/-- C7: for every destination record type (embedded sub-records at any
depth merging their columns into the parent namespace), distinct declared
columns resolve to distinct field paths (the map restricted to its domain
is injective), and scanning a row populates every destination field whose
column appears in the result set with the scanned value — under the
natural preconditions that the instance conforms to the record type, that
tagged fields are scalar, and that the result columns are distinct and
match the row width. -/
theorem scanner_resolves_and_populates :
    (∀ (fs : GoFields) (c1 c2 : String) (p : FieldPath),
      buildFieldMap fs c1 = some p → buildFieldMap fs c2 = some p → c1 = c2) ∧
    (∀ (fs : GoFields) (vs : GoVals) (cols : List String) (vals : List GoAny)
      (c : String) (v : GoAny) (p : FieldPath),
      confVals vs fs = true → primTagged fs = true →
      cols.Nodup → cols.length = vals.length →
      (c, v) ∈ cols.zip vals →
      buildFieldMap fs c = some p →
      getPathV (scanRowGo fs cols vals (.strct vs)) p = some (.leaf v)) := by
  constructor
  · intro fs c1 c2 p h1 h2
    rw [buildFieldMap_eq] at h1 h2
    exact declsJ_inj fs 0 c1 c2 p (lastLookup_mem c1 p _ h1) (lastLookup_mem c2 p _ h2)
  · intro fs vs cols vals c v p hconf hprim hnodup hlen hmem hfm
    have hmj : (c, p) ∈ declsJ fs 0 := by
      apply lastLookup_mem c p
      rw [← buildFieldMap_eq]
      exact hfm
    obtain ⟨j, q, hp, _⟩ := declsJ_shape fs 0 c p hmj
    have hmjq : (c, j :: q) ∈ declsJ fs 0 := hp ▸ hmj
    have hvalid : (getPathV (GoVal.strct vs) p).isSome := by
      obtain ⟨a, ha⟩ := declsJ_resolves fs 0 vs c j q hconf hprim hmjq
      rw [hp]
      have hred : getPathV (GoVal.strct vs) (j :: q) = getPathVs vs 0 j q := rfl
      rw [hred, ha]
      rfl
    have hnodup' : ((cols.zip vals).map Prod.fst).Nodup := by
      rw [List.map_fst_zip cols vals (le_of_eq hlen)]
      exact hnodup
    have hsep : ∀ c' p', buildFieldMap fs c' = some p' → c' ≠ c →
        ¬ p' <+: p ∧ ¬ p <+: p' := by
      intro c' p' hfm' hne
      have hmj' : (c', p') ∈ declsJ fs 0 := by
        apply lastLookup_mem c' p'
        rw [← buildFieldMap_eq]
        exact hfm'
      have hpp : p' ≠ p := by
        intro he
        subst he
        exact hne (declsJ_inj fs 0 c' c p' hmj' hmj)
      exact ⟨declsJ_prefix_free fs 0 c' c p' p hmj' hmj hpp,
        declsJ_prefix_free fs 0 c c' p p' hmj hmj' (fun h => hpp h.symm)⟩
    unfold scanRowGo
    exact scan_fold_write (buildFieldMap fs) (.strct vs) (cols.zip vals) (.strct vs)
      c v p hmem hfm hvalid rfl hnodup' hsep

/-- Witness for C7 at the spec's example: columns `[id, created_at, name]`
against a record with an embedded base supplying `id`/`created_at` (and
`updated_at`) plus a direct `name` field; every column lands at its own
path in the scanned record. -/
theorem scanner_resolves_and_populates_witness :
    ("id" : String) = "id" ∧
    getPathV (scanRowGo exUserFields ["id", "created_at", "name"]
        [.vInt64 1, .vStr "2024-01-01", .vStr "alice"]
        (.strct (zeroFlds exUserFields))) [0, 0] = some (.leaf (.vInt64 1)) ∧
    getPathV (scanRowGo exUserFields ["id", "created_at", "name"]
        [.vInt64 1, .vStr "2024-01-01", .vStr "alice"]
        (.strct (zeroFlds exUserFields))) [0, 1] = some (.leaf (.vStr "2024-01-01")) ∧
    getPathV (scanRowGo exUserFields ["id", "created_at", "name"]
        [.vInt64 1, .vStr "2024-01-01", .vStr "alice"]
        (.strct (zeroFlds exUserFields))) [1] = some (.leaf (.vStr "alice")) := by
  refine ⟨?_, ?_, ?_, ?_⟩
  · exact scanner_resolves_and_populates.1 exUserFields "id" "id" [0, 0]
      (by decide) (by decide)
  · exact scanner_resolves_and_populates.2 exUserFields (zeroFlds exUserFields)
      ["id", "created_at", "name"] [.vInt64 1, .vStr "2024-01-01", .vStr "alice"]
      "id" (.vInt64 1) [0, 0] (by decide) (by decide) (by decide) (by decide)
      (List.mem_cons_self _ _) (by decide)
  · exact scanner_resolves_and_populates.2 exUserFields (zeroFlds exUserFields)
      ["id", "created_at", "name"] [.vInt64 1, .vStr "2024-01-01", .vStr "alice"]
      "created_at" (.vStr "2024-01-01") [0, 1] (by decide) (by decide) (by decide)
      (by decide) (List.mem_cons_of_mem _ (List.mem_cons_self _ _)) (by decide)
  · exact scanner_resolves_and_populates.2 exUserFields (zeroFlds exUserFields)
      ["id", "created_at", "name"] [.vInt64 1, .vStr "2024-01-01", .vStr "alice"]
      "name" (.vStr "alice") [1] (by decide) (by decide) (by decide) (by decide)
      (List.mem_cons_of_mem _ (List.mem_cons_of_mem _ (List.mem_cons_self _ _)))
      (by decide)

end Genus

/-! ## Builder state lemmas and claims C2, C5, C6 -/

namespace Genus

theorem WhereList.length_snoc : ∀ (l : WhereList) (e : WhereElem),
    (l.snoc e).length = l.length + 1
  | .nil, _ => rfl
  | .cons _ t, e => by
    simp [WhereList.snoc, WhereList.length, WhereList.length_snoc t e]

/-- C2 counterexample: after `B.Where(c)` the receiver `B` itself holds
the new condition — its state differs from the pre-call state and
rendering the receiver now emits the added condition, so a subsequent
`B.Find` does not observe the original condition set. -/
theorem builder_where_mutates_counterexample :
    Where (newBuilder "users") (.cond ⟨"age", OpGt, .vInt 18⟩) ≠ newBuilder "users" ∧
    (buildSelectQuery postgres
        (Where (newBuilder "users") (.cond ⟨"age", OpGt, .vInt 18⟩))).1 ≠
      (buildSelectQuery postgres (newBuilder "users")).1 := by
  constructor
  · intro h
    have h2 := congrArg (fun b => b.conditions.length) h
    simp [Where, newBuilder, WhereList.snoc, WhereList.length] at h2
  · intro h
    have h1 : (buildSelectQuery postgres
        (Where (newBuilder "users") (.cond ⟨"age", OpGt, .vInt 18⟩))).1 =
        "SELECT * FROM \"users\" WHERE age > $1" := rfl
    have h2 : (buildSelectQuery postgres (newBuilder "users")).1 =
        "SELECT * FROM \"users\"" := rfl
    rw [h1, h2] at h
    exact absurd h (by decide)

/-- C2 amended: the six builder methods mutate the receiver in place and
return the receiver itself (the same object), not a copy: `Where` appends
to the receiver's condition list (so the receiver's state always
changes), `OrderByAsc`/`OrderByDesc` append to its order list, and
`Limit`/`Offset`/`Select` overwrite the respective receiver fields. -/
theorem builder_methods_mutate_receiver :
    ∀ (b : BuilderState) (c : WhereElem) (col : String) (n : Int)
      (cols : List String),
    Where b c ≠ b ∧
    (Where b c).conditions = b.conditions.snoc c ∧
    OrderByAsc b col ≠ b ∧
    (OrderByAsc b col).orderBy = b.orderBy ++ [{ Column := col, Desc := false }] ∧
    OrderByDesc b col ≠ b ∧
    (OrderByDesc b col).orderBy = b.orderBy ++ [{ Column := col, Desc := true }] ∧
    (Limit b n).limit = some n ∧
    (Offset b n).offset = some n ∧
    (Select b cols).selectCols = cols := by
  intro b c col n cols
  refine ⟨?_, rfl, ?_, rfl, ?_, rfl, rfl, rfl, rfl⟩
  · intro h
    have h2 := congrArg (fun b => b.conditions.length) h
    simp only [Where] at h2
    rw [WhereList.length_snoc] at h2
    omega
  · intro h
    have h2 := congrArg (fun b => b.orderBy.length) h
    simp [OrderByAsc] at h2
  · intro h
    have h2 := congrArg (fun b => b.orderBy.length) h
    simp [OrderByDesc] at h2

/-- Appending scanned rows to a non-nil slice accumulates the mapped
list. -/
theorem foldl_goAppend {α β : Type} (f : β → α) :
    ∀ (rows : List β) (l : List α),
    rows.foldl (fun acc r => goAppend acc (f r)) (some l) = some (l ++ rows.map f) := by
  intro rows
  induction rows with
  | nil => intro l; simp
  | cons r rest ih =>
    intro l
    rw [List.foldl_cons]
    have h0 : goAppend (some l) (f r) = some (l ++ [f r]) := rfl
    rw [h0, ih]
    simp

/-- C5 counterexample: a query returning zero rows makes `Find` return
the nil slice (Go `var results []T` is never appended to), which is not
the non-nil empty slice the claim requires. -/
theorem find_zero_rows_nil_counterexample :
    (Find postgres (newBuilder "users") exUserFields ["id"] []).2 = none ∧
    (none : GoSlice GoVal) ≠ some ([] : List GoVal) := ⟨rfl, by simp⟩

/-- C5 amended: on zero rows `Find` returns the nil slice — length zero
but nil, distinguishable from a non-nil empty slice; on one or more rows
it returns a non-nil slice with one scanned record per row. -/
theorem find_zero_rows_returns_nil :
    ∀ (fs : GoFields) (cols : List String) (rows : List (List GoAny)),
    (rows = [] → findMaterialize fs cols rows = none) ∧
    (rows ≠ [] → ∃ l, findMaterialize fs cols rows = some l ∧
      l.length = rows.length) := by
  intro fs cols rows
  constructor
  · intro h
    subst h
    rfl
  · intro h
    cases rows with
    | nil => exact absurd rfl h
    | cons r rest =>
      refine ⟨scanRowGo fs cols r (.strct (zeroFlds fs)) ::
        rest.map (fun row => scanRowGo fs cols row (.strct (zeroFlds fs))), ?_, ?_⟩
      · unfold findMaterialize
        rw [List.foldl_cons]
        have h0 : goAppend (none : GoSlice GoVal)
            (scanRowGo fs cols r (.strct (zeroFlds fs))) =
            some [scanRowGo fs cols r (.strct (zeroFlds fs))] := rfl
        rw [h0, foldl_goAppend]
        simp
      · simp

/-- Witness for C5's amended claim: zero rows yield the nil slice, one
row yields a non-nil one-element slice. -/
theorem find_zero_rows_returns_nil_witness :
    findMaterialize exUserFields ["id"] [] = none ∧
    (∃ l, findMaterialize exUserFields ["id"] [[GoAny.vInt64 1]] = some l ∧
      l.length = 1) :=
  ⟨(find_zero_rows_returns_nil exUserFields ["id"] []).1 rfl,
    (find_zero_rows_returns_nil exUserFields ["id"] [[GoAny.vInt64 1]]).2 (by simp)⟩

/-- The rendered SELECT of a builder whose limit is 1 contains the
literal ` LIMIT 1` between the ORDER BY section and the OFFSET
section. -/
theorem buildSelectQuery_limit1 (d : Dialect) (b : BuilderState)
    (h : b.limit = some 1) :
    ∃ pre post, (buildSelectQuery d b).1 = pre ++ " LIMIT 1" ++ post := by
  unfold buildSelectQuery
  rw [h]
  dsimp only
  have hl : " LIMIT " ++ toString (1 : Int) = " LIMIT 1" := rfl
  rw [hl]
  exact ⟨_, _, rfl⟩

/-- C6: `First` is `Find` on the receiver after the injected `Limit(1)`
(it issues exactly that query, whose text carries ` LIMIT 1`); zero rows
produce the no-rows error rather than a zero-valued record treated as
success, and with at least one row the first record is returned. -/
theorem first_injects_limit1_and_notfound :
    ∀ (d : Dialect) (b : BuilderState) (fs : GoFields) (cols : List String)
      (rows : List (List GoAny)),
    (First d b fs cols rows).1 = (Find d (Limit b 1) fs cols rows).1 ∧
    (∃ pre post, (First d b fs cols rows).1.1 = pre ++ " LIMIT 1" ++ post) ∧
    (rows = [] → (First d b fs cols rows).2 = .error .noRowsFound) ∧
    (∀ x xs, findMaterialize fs cols rows = some (x :: xs) →
      (First d b fs cols rows).2 = .ok x) := by
  intro d b fs cols rows
  have hfst : (First d b fs cols rows).1 = (Find d (Limit b 1) fs cols rows).1 := by
    unfold First
    cases h : ((Find d (Limit b 1) fs cols rows).2).getD [] <;> simp [h]
  refine ⟨hfst, ?_, ?_, ?_⟩
  · rw [hfst]
    have hq : (Find d (Limit b 1) fs cols rows).1 =
        buildSelectQuery d (Limit b 1) := rfl
    rw [hq]
    exact buildSelectQuery_limit1 d (Limit b 1) rfl
  · intro h
    subst h
    rfl
  · intro x xs h
    unfold First
    dsimp only
    have h2 : (Find d (Limit b 1) fs cols rows).2 = some (x :: xs) := h
    rw [h2]
    rfl

/-- Witness for C6: against a concrete builder, the issued query ends in
` LIMIT 1`; zero rows yield the no-rows error; a one-row response yields
the scanned record. -/
theorem first_injects_limit1_and_notfound_witness :
    (First postgres (newBuilder "users") exUserFields ["id"] []).1 =
      (Find postgres (Limit (newBuilder "users") 1) exUserFields ["id"] []).1 ∧
    (∃ pre post, (First postgres (newBuilder "users") exUserFields ["id"] []).1.1 =
      pre ++ " LIMIT 1" ++ post) ∧
    (First postgres (newBuilder "users") exUserFields ["id"] []).2 =
      .error .noRowsFound ∧
    (First postgres (newBuilder "users") exUserFields ["id"]
        [[GoAny.vInt64 7]]).2 =
      .ok (scanRowGo exUserFields ["id"] [GoAny.vInt64 7]
        (.strct (zeroFlds exUserFields))) := by
  refine ⟨?_, ?_, ?_, ?_⟩
  · exact (first_injects_limit1_and_notfound postgres (newBuilder "users")
      exUserFields ["id"] []).1
  · exact (first_injects_limit1_and_notfound postgres (newBuilder "users")
      exUserFields ["id"] []).2.1
  · exact (first_injects_limit1_and_notfound postgres (newBuilder "users")
      exUserFields ["id"] []).2.2.1 rfl
  · exact (first_injects_limit1_and_notfound postgres (newBuilder "users")
      exUserFields ["id"] [[GoAny.vInt64 7]]).2.2.2
      (scanRowGo exUserFields ["id"] [GoAny.vInt64 7] (.strct (zeroFlds exUserFields)))
      [] rfl

end Genus
